import Mathlib

/-!
Verification of the Fourier-epicycles math library (`fft.c`, `fourier.c`,
`mathlib.h`).

The C code works on `double complex` arrays.  Following the specification's
exact-arithmetic reading, the embedding models `Complex` as `ℂ`, arrays of
length `n` as total functions `ℕ → ℂ` whose meaningful entries are the
indices `< n` (or as `List ℂ` where lengths matter), and in-place writes as
`Function.update`.  Loops are embedded literally as recursions, in the order
the C code executes them.  The `size_t` bit-twiddling utilities are embedded
over `ℕ`; on the ranges stated no operation overflows a 64-bit `size_t`, so
`ℕ` agrees with the machine arithmetic there.
-/

open Finset Complex Real

/-! ### Bit utilities from `fft.c` -/

/-- `is_power_of_2` from `fft.c`: `n > 0 && (n & (n - 1)) == 0`. -/
def is_power_of_2 (n : ℕ) : Bool :=
  decide (0 < n) && decide (n &&& (n - 1) = 0)

/-- `next_power_of_2` from `fft.c`, 64-bit `size_t` build (the
`SIZE_MAX > 0xFFFFFFFF` branch is compiled in, so the `>> 32` smear step is
present).  For `n > 0` the code decrements, or-smears the bits downward by
shifts of 1, 2, 4, 8, 16, 32, and adds one back. -/
def next_power_of_2 (n : ℕ) : ℕ :=
  if n = 0 then 1
  else
    let n1 := n - 1
    let n2 := n1 ||| n1 >>> 1
    let n3 := n2 ||| n2 >>> 2
    let n4 := n3 ||| n3 >>> 4
    let n5 := n4 ||| n4 >>> 8
    let n6 := n5 ||| n5 >>> 16
    let n7 := n6 ||| n6 >>> 32
    n7 + 1

/-- After the or-smear steps, `x` covers `m`'s bits shifted down by up to
`J` places: bit `i` of `x` is set iff some bit `i + j`, `j ≤ J`, of `m`
is set. -/
def SmearCovers (m J x : ℕ) : Prop :=
  ∀ i, x.testBit i = true ↔ ∃ j ≤ J, m.testBit (i + j) = true

/-! ### The transforms of `fft.c` -/

/-- Bit-accumulation loop inside `bit_reverse_copy`:
`for b < bits { rev = (rev << 1) | (temp_i & 1); temp_i >>= 1; }`. -/
def bitRevAux : ℕ → ℕ → ℕ → ℕ
  | 0, rev, _ => rev
  | b + 1, rev, i => bitRevAux b ((rev <<< 1) ||| (i &&& 1)) (i >>> 1)

/-- The `bits`-bit reversal of `i` computed by `bit_reverse_copy`. -/
def bitRev (bits i : ℕ) : ℕ := bitRevAux bits 0 i

/-- Write loop of `bit_reverse_copy`: iterations `i = 0, …, N-1` perform
`output[rev(i)] = input[i]` (later writes outermost). -/
def bitRevCopyAux (input : ℕ → ℂ) (bits : ℕ) : ℕ → (ℕ → ℂ) → (ℕ → ℂ)
  | 0, out => out
  | i + 1, out =>
    Function.update (bitRevCopyAux input bits i out) (bitRev bits i) (input i)

/-- `bit_reverse_copy` from `fft.c`: `bits` is the number of iterations of
`while (temp > 1) { bits++; temp >>= 1; }`, which is exactly `Nat.log2 n`;
the output buffer is caller-supplied, modelled as the all-zero function
(every cell that `fft` later reads is overwritten when `n` is a power of
two). -/
def bit_reverse_copy (input : ℕ → ℂ) (n : ℕ) : ℕ → ℂ :=
  bitRevCopyAux input (Nat.log2 n) n (fun _ => 0)

/-- The per-stage twiddle factor `wm = cexp(-2.0 * M_PI * I / m)`. -/
noncomputable def wroot (m : ℕ) : ℂ :=
  Complex.exp (-2 * ↑π * Complex.I / ↑m)

/-- Inner butterfly loop of `fft` for block start `k` and half block size
`m2 = m/2`: iteration `j` computes `t = w * output[k+j+m2]`,
`u = output[k+j]`, writes `output[k+j] = u + t`,
`output[k+j+m2] = u - t`, then `w *= wm`.  The state is the array paired
with the running twiddle `w` (initialized to `1` by the caller). -/
noncomputable def butterflies (wm : ℂ) (k m2 : ℕ) :
    ℕ → (ℕ → ℂ) × ℂ → (ℕ → ℂ) × ℂ
  | 0, st => st
  | j + 1, st =>
    let Aw := butterflies wm k m2 j st
    let t := Aw.2 * Aw.1 (k + j + m2)
    let u := Aw.1 (k + j)
    (Function.update (Function.update Aw.1 (k + j) (u + t)) (k + j + m2) (u - t),
      Aw.2 * wm)

/-- Middle loop of one butterfly stage: `for (k = 0; k < n; k += m)`, i.e.
`B` blocks starting at `k = b·m`, each running the inner loop `m/2` times
with the twiddle reset to `1`. -/
noncomputable def fftBlocks (wm : ℂ) (m : ℕ) : ℕ → (ℕ → ℂ) → (ℕ → ℂ)
  | 0, A => A
  | b + 1, A => (butterflies wm (b * m) (m / 2) (m / 2) (fftBlocks wm m b A, 1)).1

/-- Outer stage loop of `fft`: stages `s = 1, …, S`, stage `s` using block
size `m = 2^s`, twiddle `wm = cexp(-2πi/m)`, and `n/m` blocks.  For a power
of two `n` the C loop bound `s <= log2(n)` is exact, so `S = log2 n`. -/
noncomputable def fftStages (n : ℕ) : ℕ → (ℕ → ℂ) → (ℕ → ℂ)
  | 0, A => A
  | s + 1, A =>
    fftBlocks (wroot (2 ^ (s + 1))) (2 ^ (s + 1)) (n / 2 ^ (s + 1))
      (fftStages n s A)

/-- `dft` from `fft.c`: `output[k] = (Σ_{j<n} points[j] * cexp(I * angle)) / n`
with `angle = -2.0 * M_PI * j * k / n` computed in the reals. -/
noncomputable def dft (n : ℕ) (points : ℕ → ℂ) : ℕ → ℂ := fun k =>
  (∑ j ∈ Finset.range n,
    points j * Complex.exp (Complex.I * ((-2 * π * j * k / n : ℝ) : ℂ))) / n

/-- `fft` from `fft.c`: non-powers of two fall back to `dft`; otherwise
bit-reverse copy, `log2 n` butterfly stages, then normalization dividing
entries `i < n` by `n`. -/
noncomputable def fft (n : ℕ) (points : ℕ → ℂ) : ℕ → ℂ :=
  if is_power_of_2 n then
    let A := fftStages n (Nat.log2 n) (bit_reverse_copy points n)
    fun p => if p < n then A p / n else A p
  else dft n points

/-- `ifft` from `fft.c`: for non-powers of two, the direct inverse formula
`output[i] = Σ_{k<n} coefficients[k] * cexp(2.0 * M_PI * I * k * i / n)`;
for powers of two, conjugate the input and multiply by `n`, run `fft`, and
conjugate the output.  All writes touch only indices `< n`; unwritten cells
are modelled as `0`. -/
noncomputable def ifft (n : ℕ) (coefficients : ℕ → ℂ) : ℕ → ℂ :=
  if is_power_of_2 n then
    let temp : ℕ → ℂ := fun i =>
      if i < n then (starRingEnd ℂ) (coefficients i) * ↑n else 0
    let out := fft n temp
    fun i => if i < n then (starRingEnd ℂ) (out i) else out i
  else fun i =>
    if i < n then
      ∑ k ∈ Finset.range n,
        coefficients k * Complex.exp (2 * ↑π * Complex.I * ↑k * ↑i / ↑n)
    else 0

/-- Unnormalized `m`-point discrete Fourier transform with twiddle
`wroot m`; proof-side closed form for the butterfly stages. -/
noncomputable def dftU (m : ℕ) (y : ℕ → ℂ) (r : ℕ) : ℂ :=
  ∑ j ∈ Finset.range m, y j * wroot m ^ (j * r)

/-- Caller-level view of `dft`: the output buffer has the input's length,
entry `k` holding `dft` at `k`. -/
noncomputable def dftList (points : List ℂ) : List ℂ :=
  (List.range points.length).map (dft points.length (fun j => points.getD j 0))

/-! ### The spectral analyzer of `fourier.c` -/

/-- `FourierCoefficient` from `mathlib.h`: amplitude, frequency and phase
are all `double` fields. -/
structure FourierCoefficient where
  amplitude : ℝ
  frequency : ℝ
  phase : ℝ

/-- `FourierResult` from `mathlib.h`: a possibly-`NULL` coefficient array
(`none` models the `NULL` pointer) and a count. -/
structure FourierResult where
  coefficients : Option (List FourierCoefficient)
  count : ℕ

/-- The coefficient `fourier_analyze` extracts at spectrum index `i`:
`amplitude = cabs(fft_output[i])`, `phase = carg(fft_output[i])`, and
`frequency = (double)i` when `i <= n_points / 2` (integer division),
otherwise `(double)i - (double)n_points`. -/
noncomputable def coeffOfIndex (n : ℕ) (fft_output : ℕ → ℂ) (i : ℕ) :
    FourierCoefficient where
  amplitude := Complex.abs (fft_output i)
  frequency := if i ≤ n / 2 then (i : ℝ) else (i : ℝ) - (n : ℝ)
  phase := Complex.arg (fft_output i)

/-- The order induced by `compare_coeffs_by_amplitude` (descending by
amplitude): `a` may precede `b` iff `a`'s amplitude is not smaller.  `qsort`
guarantees only a comparator-respecting permutation; it is modelled as
`List.mergeSort` with this relation, one conforming sort (tie order among
equal amplitudes is not relied upon by any theorem below). -/
noncomputable def compare_coeffs_le (a b : FourierCoefficient) : Bool :=
  decide (b.amplitude ≤ a.amplitude)

/-- The full coefficient array `all_coeffs` built by `fourier_analyze`. -/
noncomputable def allCoeffs (n : ℕ) (fft_output : ℕ → ℂ) :
    List FourierCoefficient :=
  (List.range n).map (coeffOfIndex n fft_output)

/-- `fourier_analyze` from `fourier.c` (all allocations succeeding):
degenerate input gives the empty result `{NULL, 0}`; otherwise the request
is clamped to `n_points`, the spectrum is computed by `fft`, coefficients
are extracted, sorted descending by amplitude, and the first
`n_coeffs` kept. -/
noncomputable def fourier_analyze (points : List ℂ) (n_coeffs : ℕ) :
    FourierResult :=
  if points.length = 0 ∨ n_coeffs = 0 then ⟨none, 0⟩
  else
    let n := points.length
    let k := min n_coeffs n
    let fft_output := fft n (fun j => points.getD j 0)
    let sorted := (allCoeffs n fft_output).mergeSort compare_coeffs_le
    ⟨some (sorted.take k), k⟩

/-- `fourier_analyze` with explicit allocation outcomes: `a1` is the
`fft_output` malloc, `a2` the `all_coeffs` malloc, `a3` the
`result.coefficients` malloc.  Each failing branch in the C code returns
the initial `result = {NULL, 0}`. -/
noncomputable def fourier_analyzeAlloc (a1 a2 a3 : Bool)
    (points : List ℂ) (n_coeffs : ℕ) : FourierResult :=
  if points.length = 0 ∨ n_coeffs = 0 then ⟨none, 0⟩
  else if a1 = false then ⟨none, 0⟩
  else if a2 = false then ⟨none, 0⟩
  else if a3 = false then ⟨none, 0⟩
  else fourier_analyze points n_coeffs

/-- The `k` largest amplitudes of a spectrum, as the specification's
ranking property words it: sort the amplitude multiset in non-increasing
order and keep the first `k`.  Spec-side reference value for the refinement
statement about `fourier_analyze`. -/
noncomputable def largestAmplitudes (amps : List ℝ) (k : ℕ) : Multiset ℝ :=
  ↑((amps.mergeSort fun a b => decide (b ≤ a)).take k)

/-! ### The epicycle reconstructor of `fourier.c` -/

/-- One epicycle's contribution at time `t`:
`amplitude * cexp(I * (phase + t * frequency))`. -/
noncomputable def epicycleContribution (t : ℝ) (c : FourierCoefficient) : ℂ :=
  (c.amplitude : ℂ) * Complex.exp (Complex.I * ((c.phase + t * c.frequency : ℝ) : ℂ))

/-- `epicycles_at_time` from `fourier.c`.  `hasPositions` tells whether the
caller passed a non-`NULL` `positions` buffer; the returned pair is the tip
and (when recorded) the `positions` trail.  A `NULL`/empty result writes
only `positions[0] = 0` and returns `0`.  The loop reads
`result->coefficients[i]` for `i < result->count` (in-bounds exactly when
`count` does not exceed the array length, as analyzer results guarantee). -/
noncomputable def epicycles_at_time (result : FourierResult) (t : ℝ)
    (hasPositions : Bool) : ℂ × Option (List ℂ) :=
  match result.coefficients, result.count with
  | none, _ => (0, if hasPositions then some [0] else none)
  | some _, 0 => (0, if hasPositions then some [0] else none)
  | some cs, c + 1 =>
    if hasPositions then
      let st := (cs.take (c + 1)).foldl
        (fun (st : ℂ × List ℂ) coeff =>
          let cumulative := st.1 + epicycleContribution t coeff
          (cumulative, st.2 ++ [cumulative]))
        (0, [0])
      (st.1, some st.2)
    else
      ((cs.take (c + 1)).foldl
        (fun cumulative coeff => cumulative + epicycleContribution t coeff) 0,
        none)

theorem smearCovers_self (m : ℕ) : SmearCovers m 0 m := by
  intro i
  constructor
  · intro h
    exact ⟨0, le_rfl, by simpa using h⟩
  · rintro ⟨j, hj, h⟩
    simpa [Nat.le_zero.mp hj] using h

theorem smearCovers_step {m J x : ℕ} (h : SmearCovers m J x) :
    SmearCovers m (J + (J + 1)) (x ||| x >>> (J + 1)) := by
  intro i
  rw [Nat.testBit_or, Nat.testBit_shiftRight, Bool.or_eq_true]
  constructor
  · rintro (hx | hx)
    · obtain ⟨j, hj, hm⟩ := (h i).mp hx
      exact ⟨j, le_trans hj (Nat.le_add_right _ _), hm⟩
    · obtain ⟨j, hj, hm⟩ := (h (J + 1 + i)).mp hx
      refine ⟨J + 1 + j, by omega, ?_⟩
      have : i + (J + 1 + j) = J + 1 + i + j := by omega
      rwa [this]
  · rintro ⟨j, hj, hm⟩
    by_cases hle : j ≤ J
    · exact Or.inl ((h i).mpr ⟨j, hle, hm⟩)
    · refine Or.inr ((h (J + 1 + i)).mpr ⟨j - (J + 1), by omega, ?_⟩)
      have : J + 1 + i + (j - (J + 1)) = i + j := by omega
      rwa [this]

/-- For `1 ≤ m < 2 ^ (k + 1)` with `2 ^ k ≤ m`, bit `k` of `m` is set. -/
theorem testBit_of_between_pows {m k : ℕ} (h1 : 2 ^ k ≤ m)
    (h2 : m < 2 ^ (k + 1)) : m.testBit k = true := by
  rw [Nat.testBit_to_div_mod]
  have hdiv : m / 2 ^ k = 1 := by
    have hlo : 1 ≤ m / 2 ^ k := (Nat.one_le_div_iff (Nat.pos_pow_of_pos k (by norm_num))).mpr h1
    have hhi : m / 2 ^ k < 2 := by
      rw [Nat.div_lt_iff_lt_mul (Nat.pos_pow_of_pos k (by norm_num))]
      rw [pow_succ] at h2
      omega
    omega
  simp [hdiv]

theorem testBit_false_of_lt {m i : ℕ} (h : m < 2 ^ i) : m.testBit i = false := by
  rw [Nat.testBit_to_div_mod]
  simp [Nat.div_eq_of_lt h]

/-- The fully smeared value below a nonzero `m < 2 ^ 63` is
`2 ^ (log2 m + 1) - 1`. -/
theorem smear_eq_pow_sub_one {m x : ℕ} (hm : 0 < m) (hm63 : m < 2 ^ 63)
    (h : SmearCovers m 63 x) : x = 2 ^ (Nat.log2 m + 1) - 1 := by
  have hk : Nat.log2 m < 63 := (Nat.log2_lt (by omega)).mpr hm63
  have hbit : m.testBit (Nat.log2 m) = true :=
    testBit_of_between_pows (Nat.log2_self_le (by omega)) (Nat.lt_log2_self)
  apply Nat.eq_of_testBit_eq
  intro i
  rw [Nat.testBit_two_pow_sub_one]
  by_cases hi : i < Nat.log2 m + 1
  · simp only [hi, decide_eq_true_eq]
    exact (h i).mpr ⟨Nat.log2 m - i, by omega, by
      have : i + (Nat.log2 m - i) = Nat.log2 m := by omega
      rw [this]; exact hbit⟩
  · simp only [decide_eq_false hi]
    rw [← Bool.not_eq_true]
    intro hx
    obtain ⟨j, _, hmj⟩ := (h i).mp hx
    have : m < 2 ^ (i + j) := by
      calc m < 2 ^ (Nat.log2 m + 1) := Nat.lt_log2_self
        _ ≤ 2 ^ (i + j) := Nat.pow_le_pow_right (by norm_num) (by omega)
    rw [testBit_false_of_lt this] at hmj
    exact Bool.false_ne_true hmj

/-- Unfolded smear chain for `next_power_of_2` on positive input. -/
theorem next_power_of_2_covers {n : ℕ} (hn : 0 < n) :
    ∃ x, SmearCovers (n - 1) 63 x ∧ next_power_of_2 n = x + 1 := by
  have h0 := smearCovers_self (n - 1)
  have h1 := smearCovers_step h0
  have h2 := smearCovers_step h1
  have h3 := smearCovers_step h2
  have h4 := smearCovers_step h3
  have h5 := smearCovers_step h4
  have h6 := smearCovers_step h5
  norm_num at h1 h2 h3 h4 h5 h6
  refine ⟨_, h6, ?_⟩
  rw [next_power_of_2, if_neg (by omega)]

/-- The smear of `0` is `0`. -/
theorem smear_zero {x : ℕ} (h : SmearCovers 0 63 x) : x = 0 := by
  apply Nat.eq_of_testBit_eq
  intro i
  rw [Nat.zero_testBit, ← Bool.not_eq_true]
  intro hx
  obtain ⟨j, _, hmj⟩ := (h i).mp hx
  rw [Nat.zero_testBit] at hmj
  exact Bool.false_ne_true hmj

theorem next_power_of_2_one : next_power_of_2 1 = 1 := by decide

theorem next_power_of_2_eq_pow {n : ℕ} (hn : 2 ≤ n) (h63 : n ≤ 2 ^ 63) :
    next_power_of_2 n = 2 ^ (Nat.log2 (n - 1) + 1) := by
  obtain ⟨x, hcov, heq⟩ := next_power_of_2_covers (n := n) (by omega)
  have hm63 : n - 1 < 2 ^ 63 := by omega
  have hx : x = 2 ^ (Nat.log2 (n - 1) + 1) - 1 :=
    smear_eq_pow_sub_one (by omega) hm63 hcov
  rw [heq, hx]
  have : 1 ≤ 2 ^ (Nat.log2 (n - 1) + 1) := Nat.one_le_two_pow
  omega

theorem land_self_eq (a : ℕ) : a &&& a = a := by
  apply Nat.eq_of_testBit_eq
  intro i
  rw [Nat.testBit_land, Bool.and_self]

theorem two_mul_land_two_mul_add_one (a b : ℕ) :
    2 * a &&& (2 * b + 1) = 2 * (a &&& b) := by
  apply Nat.eq_of_testBit_eq
  intro i
  cases i with
  | zero =>
    rw [Nat.testBit_land, Nat.testBit_zero, Nat.testBit_zero, Nat.testBit_zero]
    have h1 : 2 * a % 2 = 0 := by omega
    have h2 : 2 * (a &&& b) % 2 = 0 := by omega
    simp [h1, h2]
  | succ i =>
    have h1 : 2 * a / 2 = a := by omega
    have h2 : (2 * b + 1) / 2 = b := by omega
    have h3 : 2 * (a &&& b) / 2 = a &&& b := by omega
    rw [Nat.testBit_land, Nat.testBit_succ, Nat.testBit_succ, Nat.testBit_succ,
      h1, h2, h3, Nat.testBit_land]

theorem two_mul_add_one_land_two_mul (a b : ℕ) :
    (2 * a + 1) &&& 2 * b = 2 * (a &&& b) := by
  apply Nat.eq_of_testBit_eq
  intro i
  cases i with
  | zero =>
    rw [Nat.testBit_land, Nat.testBit_zero, Nat.testBit_zero, Nat.testBit_zero]
    have h1 : 2 * b % 2 = 0 := by omega
    have h2 : 2 * (a &&& b) % 2 = 0 := by omega
    simp [h1, h2]
  | succ i =>
    have h1 : (2 * a + 1) / 2 = a := by omega
    have h2 : 2 * b / 2 = b := by omega
    have h3 : 2 * (a &&& b) / 2 = a &&& b := by omega
    rw [Nat.testBit_land, Nat.testBit_succ, Nat.testBit_succ, Nat.testBit_succ,
      h1, h2, h3, Nat.testBit_land]

theorem pow_of_land_pred_eq_zero :
    ∀ n : ℕ, 0 < n → n &&& (n - 1) = 0 → ∃ t, n = 2 ^ t := by
  intro n
  induction n using Nat.strong_induction_on with
  | _ n ih =>
    intro hn h
    rcases Nat.even_or_odd n with he | ho
    · obtain ⟨a, ha⟩ := he
      have ha2 : n = 2 * a := by omega
      have hapos : 0 < a := by omega
      have hpred : n - 1 = 2 * (a - 1) + 1 := by omega
      rw [hpred, ha2, two_mul_land_two_mul_add_one] at h
      have h' : a &&& (a - 1) = 0 := by omega
      obtain ⟨t, ht⟩ := ih a (by omega) hapos h'
      exact ⟨t + 1, by rw [ha2, ht, pow_succ]; ring⟩
    · obtain ⟨a, ha⟩ := ho
      rcases Nat.eq_zero_or_pos a with ha0 | hapos
      · exact ⟨0, by omega⟩
      · exfalso
        have hpred : n - 1 = 2 * a := by omega
        rw [hpred, ha, two_mul_add_one_land_two_mul, land_self_eq] at h
        omega

theorem is_power_of_2_iff (n : ℕ) : is_power_of_2 n = true ↔ ∃ t, n = 2 ^ t := by
  rw [is_power_of_2, Bool.and_eq_true, decide_eq_true_eq, decide_eq_true_eq]
  constructor
  · rintro ⟨hn, h⟩
    exact pow_of_land_pred_eq_zero n hn h
  · rintro ⟨t, rfl⟩
    refine ⟨Nat.pos_pow_of_pos t (by norm_num), ?_⟩
    apply Nat.eq_of_testBit_eq
    intro i
    rw [Nat.testBit_land, Nat.testBit_two_pow, Nat.testBit_two_pow_sub_one,
      Nat.zero_testBit]
    by_cases hi : t = i
    · subst hi
      simp
    · simp [hi]

/-- C9: for every `n ≤ 2^63` (the largest power of two representable in a
64-bit `size_t`), `next_power_of_2 n` is the smallest power of two `≥ n`,
and `next_power_of_2 0 = 1`. -/
theorem next_power_of_2_correct (n : ℕ) (h63 : n ≤ 2 ^ 63) :
    next_power_of_2 0 = 1 ∧ (∃ k, next_power_of_2 n = 2 ^ k) ∧
    n ≤ next_power_of_2 n ∧ ∀ j, n ≤ 2 ^ j → next_power_of_2 n ≤ 2 ^ j := by
  refine ⟨by decide, ?_⟩
  rcases Nat.lt_or_ge n 2 with hn | hn
  · have h1 : next_power_of_2 n = 1 := by
      interval_cases n
      · decide
      · decide
    rw [h1]
    exact ⟨⟨0, rfl⟩, by omega, fun j _ => Nat.one_le_two_pow⟩
  · rw [next_power_of_2_eq_pow hn h63]
    refine ⟨⟨Nat.log2 (n - 1) + 1, rfl⟩, ?_, ?_⟩
    · have := Nat.lt_log2_self (n := n - 1)
      omega
    · intro j hj
      apply Nat.pow_le_pow_right (by norm_num)
      have hlt : n - 1 < 2 ^ j := by omega
      have := (Nat.log2_lt (n := n - 1) (by omega)).mpr hlt
      omega

/-- Witness for C9 at `n = 5`: the hypothesis holds and the returned value
is `8`. -/
theorem next_power_of_2_correct_witness :
    5 ≤ 2 ^ 63 ∧
    (next_power_of_2 0 = 1 ∧ (∃ k, next_power_of_2 5 = 2 ^ k) ∧
     5 ≤ next_power_of_2 5 ∧ ∀ j, 5 ≤ 2 ^ j → next_power_of_2 5 ≤ 2 ^ j) :=
  ⟨by norm_num, next_power_of_2_correct 5 (by norm_num)⟩

/-! ### Bit reversal lemmas -/

theorem two_mul_lor_one (a : ℕ) : 2 * a ||| 1 = 2 * a + 1 := by
  apply Nat.eq_of_testBit_eq
  intro i
  cases i with
  | zero =>
    rw [Nat.testBit_or, Nat.testBit_zero, Nat.testBit_zero, Nat.testBit_zero]
    have h1 : 2 * a % 2 = 0 := by omega
    have h2 : (2 * a + 1) % 2 = 1 := by omega
    simp [h1, h2]
  | succ i =>
    rw [Nat.testBit_or, Nat.testBit_succ, Nat.testBit_succ, Nat.testBit_succ]
    have h1 : 2 * a / 2 = a := by omega
    have h2 : (2 * a + 1) / 2 = a := by omega
    have h3 : (1 : ℕ) / 2 = 0 := by omega
    rw [h1, h2, h3, Nat.zero_testBit, Bool.or_false]

theorem bitRevAux_step_eq (rev i : ℕ) :
    (rev <<< 1) ||| (i &&& 1) = 2 * rev + i % 2 := by
  rw [Nat.shiftLeft_eq, Nat.and_one_is_mod, pow_one, mul_comm rev 2]
  rcases Nat.mod_two_eq_zero_or_one i with h | h
  · rw [h]
    simp
  · rw [h, two_mul_lor_one]

theorem bitRevAux_acc : ∀ (b rev i : ℕ),
    bitRevAux b rev i = rev * 2 ^ b + bitRev b i := by
  intro b
  induction b with
  | zero => intro rev i; simp [bitRevAux, bitRev]
  | succ b ih =>
    intro rev i
    rw [bitRev, bitRevAux, bitRevAux, ih, ih]
    rw [bitRevAux_step_eq, bitRevAux_step_eq]
    ring

theorem bitRev_succ (b i : ℕ) :
    bitRev (b + 1) i = i % 2 * 2 ^ b + bitRev b (i / 2) := by
  rw [bitRev, bitRevAux, bitRevAux_acc, bitRevAux_step_eq]
  have h : i >>> 1 = i / 2 := by
    rw [Nat.shiftRight_succ, Nat.shiftRight_zero]
  rw [h]
  ring

theorem bitRev_lt : ∀ (b i : ℕ), bitRev b i < 2 ^ b := by
  intro b
  induction b with
  | zero => intro i; simp [bitRev, bitRevAux]
  | succ b ih =>
    intro i
    rw [bitRev_succ, pow_succ]
    have h1 : i % 2 ≤ 1 := by omega
    have := ih (i / 2)
    nlinarith

theorem bitRev_high : ∀ (b x c : ℕ), x < 2 ^ b → c < 2 →
    bitRev (b + 1) (x + c * 2 ^ b) = 2 * bitRev b x + c := by
  intro b
  induction b with
  | zero =>
    intro x c hx hc
    interval_cases x
    interval_cases c
    · decide
    · decide
  | succ b ih =>
    intro x c hx hc
    rw [bitRev_succ]
    have hmod : (x + c * 2 ^ (b + 1)) % 2 = x % 2 := by
      interval_cases c
      · simp
      · rw [pow_succ]
        omega
    have hdiv : (x + c * 2 ^ (b + 1)) / 2 = x / 2 + c * 2 ^ b := by
      interval_cases c
      · simp
      · rw [pow_succ]
        omega
    rw [hmod, hdiv, ih (x / 2) c (by rw [pow_succ] at hx; omega) hc,
      bitRev_succ]
    ring

theorem bitRev_bitRev : ∀ (b i : ℕ), i < 2 ^ b →
    bitRev b (bitRev b i) = i := by
  intro b
  induction b with
  | zero =>
    intro i hi
    interval_cases i
    decide
  | succ b ih =>
    intro i hi
    rw [bitRev_succ b i, Nat.add_comm (i % 2 * 2 ^ b)]
    rw [bitRev_high b (bitRev b (i / 2)) (i % 2) (bitRev_lt b (i / 2)) (by omega)]
    rw [ih (i / 2) (by rw [pow_succ] at hi; omega)]
    omega

theorem bitRev_inj {b i j : ℕ} (hi : i < 2 ^ b) (hj : j < 2 ^ b)
    (h : bitRev b i = bitRev b j) : i = j := by
  have := bitRev_bitRev b i hi
  rw [h, bitRev_bitRev b j hj] at this
  omega

theorem bitRev_two_mul (k b : ℕ) : bitRev (k + 1) (2 * b) = bitRev k b := by
  rw [bitRev_succ]
  have h1 : 2 * b % 2 = 0 := by omega
  have h2 : 2 * b / 2 = b := by omega
  rw [h1, h2]
  ring

theorem bitRev_two_mul_add_one (k b : ℕ) :
    bitRev (k + 1) (2 * b + 1) = 2 ^ k + bitRev k b := by
  rw [bitRev_succ]
  have h1 : (2 * b + 1) % 2 = 1 := by omega
  have h2 : (2 * b + 1) / 2 = b := by omega
  rw [h1, h2]
  ring

theorem log2_two_pow (t : ℕ) : Nat.log2 (2 ^ t) = t := by
  have hne : (2 : ℕ) ^ t ≠ 0 := (Nat.pos_pow_of_pos t (by norm_num)).ne.symm
  have h1 : 2 ^ Nat.log2 (2 ^ t) ≤ 2 ^ t := Nat.log2_self_le hne
  have h2 : (2 : ℕ) ^ t < 2 ^ (Nat.log2 (2 ^ t) + 1) := Nat.lt_log2_self
  have h3 : Nat.log2 (2 ^ t) ≤ t := (Nat.pow_le_pow_iff_right (by norm_num)).mp h1
  have h4 : t < Nat.log2 (2 ^ t) + 1 := (Nat.pow_lt_pow_iff_right (by norm_num)).mp h2
  omega

theorem bitRevCopyAux_get {bits : ℕ} (input : ℕ → ℂ) :
    ∀ (N : ℕ) (out : ℕ → ℂ) (i : ℕ), i < N → N ≤ 2 ^ bits →
      bitRevCopyAux input bits N out (bitRev bits i) = input i := by
  intro N
  induction N with
  | zero => intro out i hi; omega
  | succ M ih =>
    intro out i hi hN
    rw [bitRevCopyAux]
    by_cases heq : i = M
    · subst heq
      rw [Function.update_same]
    · have hiM : i < M := by omega
      have hne : bitRev bits i ≠ bitRev bits M := by
        intro h
        exact heq (bitRev_inj (by omega) (by omega) h)
      rw [Function.update_noteq hne]
      exact ih out i hiM (by omega)

theorem bit_reverse_copy_get {t : ℕ} (input : ℕ → ℂ) {p : ℕ}
    (hp : p < 2 ^ t) :
    bit_reverse_copy input (2 ^ t) p = input (bitRev t p) := by
  rw [bit_reverse_copy, log2_two_pow]
  have h1 : bitRev t (bitRev t p) = p := bitRev_bitRev t p hp
  have h2 := bitRevCopyAux_get input (2 ^ t) (fun _ => 0) (bitRev t p)
    (bitRev_lt t p) le_rfl
  rw [h1] at h2
  exact h2

/-! ### Twiddle factor identities -/

theorem wroot_sq {m2 : ℕ} (h : 0 < m2) : wroot (2 * m2) ^ 2 = wroot m2 := by
  rw [wroot, wroot, ← Complex.exp_nat_mul]
  congr 1
  have hm : (m2 : ℂ) ≠ 0 := Nat.cast_ne_zero.mpr h.ne'
  push_cast
  field_simp
  ring

theorem wroot_pow_self {m : ℕ} (h : 0 < m) : wroot m ^ m = 1 := by
  rw [wroot, ← Complex.exp_nat_mul]
  have hm : (m : ℂ) ≠ 0 := Nat.cast_ne_zero.mpr h.ne'
  have harg : (m : ℂ) * (-2 * ↑π * Complex.I / ↑m) = -(2 * ↑π * Complex.I) := by
    field_simp
    ring
  rw [harg, Complex.exp_neg, Complex.exp_two_pi_mul_I, inv_one]

theorem wroot_pow_half {m2 : ℕ} (h : 0 < m2) : wroot (2 * m2) ^ m2 = -1 := by
  rw [wroot, ← Complex.exp_nat_mul]
  have hm : ((2 * m2 : ℕ) : ℂ) ≠ 0 := Nat.cast_ne_zero.mpr (by omega)
  have harg : (m2 : ℂ) * (-2 * ↑π * Complex.I / ↑(2 * m2)) = -(↑π * Complex.I) := by
    push_cast at hm ⊢
    field_simp
    ring
  rw [harg, Complex.exp_neg, Complex.exp_pi_mul_I]
  norm_num

theorem sum_range_two_mul (m : ℕ) (f : ℕ → ℂ) :
    ∑ j ∈ Finset.range (2 * m), f j =
      ∑ j ∈ Finset.range m, f (2 * j) + ∑ j ∈ Finset.range m, f (2 * j + 1) := by
  induction m with
  | zero => simp
  | succ m ih =>
    have h2 : 2 * (m + 1) = 2 * m + 1 + 1 := by ring
    rw [h2, Finset.sum_range_succ, Finset.sum_range_succ, Finset.sum_range_succ,
      Finset.sum_range_succ, ih]
    ring

theorem dftU_one (y : ℕ → ℂ) : dftU 1 y 0 = y 0 := by
  simp [dftU]

theorem dftU_split {m2 : ℕ} (h : 0 < m2) (y : ℕ → ℂ) (r : ℕ) :
    dftU (2 * m2) y r =
      dftU m2 (fun j => y (2 * j)) r +
        wroot (2 * m2) ^ r * dftU m2 (fun j => y (2 * j + 1)) r := by
  rw [dftU, sum_range_two_mul]
  congr 1
  · rw [dftU]
    apply Finset.sum_congr rfl
    intro j _
    congr 1
    rw [show 2 * j * r = 2 * (j * r) by ring, pow_mul, wroot_sq h]
  · rw [dftU, Finset.mul_sum]
    apply Finset.sum_congr rfl
    intro j _
    rw [show (2 * j + 1) * r = 2 * (j * r) + r by ring, pow_add,
      pow_mul, wroot_sq h]
    ring

theorem dftU_split_shift {m2 : ℕ} (h : 0 < m2) (y : ℕ → ℂ) (r : ℕ) :
    dftU (2 * m2) y (r + m2) =
      dftU m2 (fun j => y (2 * j)) r -
        wroot (2 * m2) ^ r * dftU m2 (fun j => y (2 * j + 1)) r := by
  rw [dftU, sum_range_two_mul]
  have hself : ∀ j : ℕ, wroot m2 ^ (m2 * j) = 1 := by
    intro j
    rw [pow_mul, wroot_pow_self h, one_pow]
  have heven : ∀ j : ℕ, wroot (2 * m2) ^ (2 * j * (r + m2)) = wroot m2 ^ (j * r) := by
    intro j
    rw [show 2 * j * (r + m2) = 2 * (j * (r + m2)) by ring, pow_mul, wroot_sq h,
      show j * (r + m2) = j * r + m2 * j by ring, pow_add, hself, mul_one]
  have hodd : ∀ j : ℕ, wroot (2 * m2) ^ ((2 * j + 1) * (r + m2)) =
      -(wroot m2 ^ (j * r) * wroot (2 * m2) ^ r) := by
    intro j
    rw [show (2 * j + 1) * (r + m2) = 2 * (j * (r + m2)) + r + m2 by ring]
    rw [pow_add, pow_add, wroot_pow_half h, pow_mul, wroot_sq h,
      show j * (r + m2) = j * r + m2 * j by ring, pow_add, hself, mul_one]
    ring
  have h1 : ∑ j ∈ Finset.range m2, y (2 * j) * wroot (2 * m2) ^ (2 * j * (r + m2)) =
      dftU m2 (fun j => y (2 * j)) r := by
    rw [dftU]
    exact Finset.sum_congr rfl fun j _ => by rw [heven]
  have h2 : ∑ j ∈ Finset.range m2,
      y (2 * j + 1) * wroot (2 * m2) ^ ((2 * j + 1) * (r + m2)) =
      -(wroot (2 * m2) ^ r * dftU m2 (fun j => y (2 * j + 1)) r) := by
    rw [dftU, Finset.mul_sum, ← Finset.sum_neg_distrib]
    apply Finset.sum_congr rfl
    intro j _
    rw [hodd]
    ring
  rw [h1, h2]
  ring

/-! ### Butterfly loop characterization -/

theorem butterflies_spec (wm : ℂ) (k m2 : ℕ) (A : ℕ → ℂ) :
    ∀ j, j ≤ m2 →
      (butterflies wm k m2 j (A, 1)).2 = wm ^ j ∧
      (∀ q, q < j →
        (butterflies wm k m2 j (A, 1)).1 (k + q) =
          A (k + q) + wm ^ q * A (k + q + m2) ∧
        (butterflies wm k m2 j (A, 1)).1 (k + q + m2) =
          A (k + q) - wm ^ q * A (k + q + m2)) ∧
      (∀ p, (∀ q, q < j → p ≠ k + q ∧ p ≠ k + q + m2) →
        (butterflies wm k m2 j (A, 1)).1 p = A p) := by
  intro j
  induction j with
  | zero =>
    intro _
    exact ⟨by simp [butterflies], fun q hq => absurd hq (by omega),
      fun p _ => rfl⟩
  | succ j ih =>
    intro hj1
    have hjlt : j < m2 := by omega
    obtain ⟨ihw, ihval, ihframe⟩ := ih (by omega)
    have hstep : butterflies wm k m2 (j + 1) (A, 1) =
        (Function.update
            (Function.update (butterflies wm k m2 j (A, 1)).1 (k + j)
              ((butterflies wm k m2 j (A, 1)).1 (k + j) +
                (butterflies wm k m2 j (A, 1)).2 *
                  (butterflies wm k m2 j (A, 1)).1 (k + j + m2)))
            (k + j + m2)
            ((butterflies wm k m2 j (A, 1)).1 (k + j) -
              (butterflies wm k m2 j (A, 1)).2 *
                (butterflies wm k m2 j (A, 1)).1 (k + j + m2)),
          (butterflies wm k m2 j (A, 1)).2 * wm) := rfl
    have hread1 : (butterflies wm k m2 j (A, 1)).1 (k + j) = A (k + j) :=
      ihframe _ (fun q hq => ⟨by omega, by omega⟩)
    have hread2 : (butterflies wm k m2 j (A, 1)).1 (k + j + m2) =
        A (k + j + m2) :=
      ihframe _ (fun q hq => ⟨by omega, by omega⟩)
    refine ⟨?_, ?_, ?_⟩
    · rw [hstep]
      simp only
      rw [ihw, ← pow_succ]
    · intro q hq
      rcases Nat.lt_succ_iff_lt_or_eq.mp hq with hqlt | hqeq
      · constructor
        · rw [hstep]
          simp only
          rw [Function.update_noteq (by omega), Function.update_noteq (by omega)]
          exact (ihval q hqlt).1
        · rw [hstep]
          simp only
          rw [Function.update_noteq (by omega), Function.update_noteq (by omega)]
          exact (ihval q hqlt).2
      · subst hqeq
        constructor
        · rw [hstep]
          simp only
          rw [Function.update_noteq (by omega), Function.update_same,
            hread1, hread2, ihw]
        · rw [hstep]
          simp only
          rw [Function.update_same, hread1, hread2, ihw]
    · intro p hp
      have hp1 : p ≠ k + j := (hp j (by omega)).1
      have hp2 : p ≠ k + j + m2 := (hp j (by omega)).2
      rw [hstep]
      simp only
      rw [Function.update_noteq hp2, Function.update_noteq hp1]
      exact ihframe p (fun q hq => hp q (by omega))

theorem fftBlocks_spec (wm : ℂ) (m2 : ℕ) (h : 0 < m2) (A : ℕ → ℂ) :
    ∀ B : ℕ,
      (∀ p, B * (2 * m2) ≤ p → fftBlocks wm (2 * m2) B A p = A p) ∧
      (∀ b q, b < B → q < m2 →
        fftBlocks wm (2 * m2) B A (b * (2 * m2) + q) =
          A (b * (2 * m2) + q) + wm ^ q * A (b * (2 * m2) + q + m2) ∧
        fftBlocks wm (2 * m2) B A (b * (2 * m2) + q + m2) =
          A (b * (2 * m2) + q) - wm ^ q * A (b * (2 * m2) + q + m2)) := by
  intro B
  induction B with
  | zero => exact ⟨fun p _ => rfl, fun b q hb _ => absurd hb (by omega)⟩
  | succ B ih =>
    obtain ⟨ihframe, ihval⟩ := ih
    have hhalf : 2 * m2 / 2 = m2 := by omega
    have hstep : fftBlocks wm (2 * m2) (B + 1) A =
        (butterflies wm (B * (2 * m2)) m2 m2 (fftBlocks wm (2 * m2) B A, 1)).1 := by
      rw [fftBlocks, hhalf]
    obtain ⟨_, bval, bframe⟩ :=
      butterflies_spec wm (B * (2 * m2)) m2 (fftBlocks wm (2 * m2) B A) m2 le_rfl
    have hexp : (B + 1) * (2 * m2) = B * (2 * m2) + 2 * m2 := by ring
    constructor
    · intro p hpge
      rw [hstep]
      rw [bframe p (fun q hq => ⟨by omega, by omega⟩)]
      exact ihframe p (by omega)
    · intro b q hb hq
      rcases Nat.lt_succ_iff_lt_or_eq.mp hb with hblt | hbeq
      · have hmono : (b + 1) * (2 * m2) ≤ B * (2 * m2) :=
          Nat.mul_le_mul_right _ (by omega)
        have hexp2 : (b + 1) * (2 * m2) = b * (2 * m2) + 2 * m2 := by ring
        constructor
        · rw [hstep, bframe _ (fun q' hq' => ⟨by omega, by omega⟩)]
          exact (ihval b q hblt hq).1
        · rw [hstep, bframe _ (fun q' hq' => ⟨by omega, by omega⟩)]
          exact (ihval b q hblt hq).2
      · subst hbeq
        have hr1 : fftBlocks wm (2 * m2) b A (b * (2 * m2) + q) =
            A (b * (2 * m2) + q) := ihframe _ (by omega)
        have hr2 : fftBlocks wm (2 * m2) b A (b * (2 * m2) + q + m2) =
            A (b * (2 * m2) + q + m2) := ihframe _ (by omega)
        constructor
        · rw [hstep, (bval q hq).1, hr1, hr2]
        · rw [hstep, (bval q hq).2, hr1, hr2]

/-! ### The stage invariant: after `s` stages each block of size `2^s`
holds the unnormalized DFT of the corresponding decimated subsequence. -/

theorem fftStages_invariant (t : ℕ) (x : ℕ → ℂ) :
    ∀ s, s ≤ t → ∀ b r, b < 2 ^ (t - s) → r < 2 ^ s →
      fftStages (2 ^ t) s (bit_reverse_copy x (2 ^ t)) (b * 2 ^ s + r) =
        dftU (2 ^ s) (fun j => x (bitRev (t - s) b + j * 2 ^ (t - s))) r := by
  intro s
  induction s with
  | zero =>
    intro _ b r hb hr
    have hr0 : r = 0 := by omega
    subst hr0
    rw [fftStages]
    simp only [pow_zero, mul_one, add_zero, Nat.sub_zero] at hb ⊢
    rw [dftU_one, bit_reverse_copy_get x hb]
    simp
  | succ s ih =>
    intro hs1 b r hb hr
    have hu : t - s = (t - (s + 1)) + 1 := by omega
    have hm2pos : 0 < (2 : ℕ) ^ s := Nat.pos_pow_of_pos s (by norm_num)
    have hm : (2 : ℕ) ^ (s + 1) = 2 * 2 ^ s := by rw [pow_succ]; ring
    have hpowts : (2 : ℕ) ^ (t - s) = 2 * 2 ^ (t - (s + 1)) := by
      rw [hu, pow_succ]; ring
    have hdiv : (2 : ℕ) ^ t / 2 ^ (s + 1) = 2 ^ (t - (s + 1)) :=
      Nat.pow_div hs1 (by norm_num)
    obtain ⟨_, bval⟩ := fftBlocks_spec (wroot (2 ^ (s + 1))) (2 ^ s) hm2pos
      (fftStages (2 ^ t) s (bit_reverse_copy x (2 ^ t))) (2 ^ (t - (s + 1)))
    have hstage : fftStages (2 ^ t) (s + 1) (bit_reverse_copy x (2 ^ t)) =
        fftBlocks (wroot (2 ^ (s + 1))) (2 * 2 ^ s) (2 ^ (t - (s + 1)))
          (fftStages (2 ^ t) s (bit_reverse_copy x (2 ^ t))) := by
      rw [fftStages, hdiv, hm]
    have hbeven : 2 * b < 2 ^ (t - s) := by omega
    have hbodd : 2 * b + 1 < 2 ^ (t - s) := by omega
    rcases Nat.lt_or_ge r (2 ^ s) with hrlt | hrge
    · have hpos : b * 2 ^ (s + 1) + r = b * (2 * 2 ^ s) + r := by rw [hm]
      rw [hstage, hpos, (bval b r hb hrlt).1]
      have hp1 : b * (2 * 2 ^ s) + r = 2 * b * 2 ^ s + r := by ring
      have hp2 : 2 * b * 2 ^ s + r + 2 ^ s = (2 * b + 1) * 2 ^ s + r := by ring
      rw [hp1, hp2, ih (by omega) (2 * b) r hbeven hrlt,
        ih (by omega) (2 * b + 1) r hbodd hrlt]
      simp only [hm, dftU_split hm2pos]
      congr 1
      · congr 1
        funext j
        congr 1
        rw [hu, bitRev_two_mul, pow_succ]
        ring
      · congr 1
        congr 1
        funext j
        congr 1
        rw [hu, bitRev_two_mul_add_one, pow_succ]
        ring
    · obtain ⟨q, rfl⟩ : ∃ q, r = q + 2 ^ s := ⟨r - 2 ^ s, by omega⟩
      have hq : q < 2 ^ s := by omega
      have hpos : b * 2 ^ (s + 1) + (q + 2 ^ s) = b * (2 * 2 ^ s) + q + 2 ^ s := by
        rw [hm]; ring
      rw [hstage, hpos, (bval b q hb hq).2]
      have hp1 : b * (2 * 2 ^ s) + q = 2 * b * 2 ^ s + q := by ring
      have hp2 : 2 * b * 2 ^ s + q + 2 ^ s = (2 * b + 1) * 2 ^ s + q := by ring
      rw [hp1, hp2, ih (by omega) (2 * b) q hbeven hq,
        ih (by omega) (2 * b + 1) q hbodd hq]
      simp only [hm, dftU_split_shift hm2pos]
      congr 1
      · congr 1
        funext j
        congr 1
        rw [hu, bitRev_two_mul, pow_succ]
        ring
      · congr 1
        congr 1
        funext j
        congr 1
        rw [hu, bitRev_two_mul_add_one, pow_succ]
        ring

/-! ### `fft` computes the direct transform -/

theorem fft_pow2_eq_dftU (t : ℕ) (x : ℕ → ℂ) {p : ℕ} (hp : p < 2 ^ t) :
    fftStages (2 ^ t) t (bit_reverse_copy x (2 ^ t)) p = dftU (2 ^ t) x p := by
  have h := fftStages_invariant t x t le_rfl 0 p
    (by simp [Nat.sub_self]) (by simpa using hp)
  simp only [Nat.sub_self, pow_zero, mul_one, zero_mul, zero_add] at h
  rw [h]
  congr 1
  funext j
  congr 1
  have hb0 : bitRev 0 0 = 0 := rfl
  rw [hb0]
  omega

theorem dftU_div_eq_dft (n : ℕ) (x : ℕ → ℂ) (k : ℕ) :
    dftU n x k / ↑n = dft n x k := by
  rw [dftU, dft]
  congr 1
  apply Finset.sum_congr rfl
  intro j _
  congr 1
  rw [wroot, ← Complex.exp_nat_mul]
  congr 1
  push_cast
  ring

theorem fft_eq_dft_of_lt {n : ℕ} (x : ℕ → ℂ) {k : ℕ} (hk : k < n) :
    fft n x k = dft n x k := by
  by_cases h : is_power_of_2 n = true
  · obtain ⟨t, rfl⟩ := (is_power_of_2_iff n).mp h
    rw [fft, if_pos h]
    simp only [log2_two_pow, hk, if_true]
    rw [fft_pow2_eq_dftU t x hk, dftU_div_eq_dft]
  · rw [fft, if_neg h]

/-- C2: for every `n` and every input, the fast-path forward transform
`fft` agrees exactly with the `O(n²)` reference `dft` on every output
index — in particular for power-of-two `n`, where `fft` runs the iterative
radix-2 Cooley-Tukey algorithm instead of delegating to `dft`. -/
theorem fft_agrees_with_dft (n : ℕ) (x : ℕ → ℂ) (k : ℕ) (hk : k < n) :
    fft n x k = dft n x k :=
  fft_eq_dft_of_lt x hk

/-- Witness for C2 at the power-of-two size `n = 8`, input `x j = j`,
output index `k = 3`. -/
theorem fft_agrees_with_dft_witness :
    3 < 8 ∧ fft 8 (fun j => (j : ℂ)) 3 = dft 8 (fun j => (j : ℂ)) 3 :=
  ⟨by norm_num, fft_agrees_with_dft 8 (fun j => (j : ℂ)) 3 (by norm_num)⟩

/-! ### Inverse transform: orthogonality of the exponential kernel -/

theorem exp_kernel_mul (n j k i : ℕ) :
    Complex.exp (Complex.I * ((-2 * π * j * k / n : ℝ) : ℂ)) *
      Complex.exp (2 * ↑π * Complex.I * ↑k * ↑i / ↑n) =
    Complex.exp (2 * ↑π * Complex.I * (↑i - ↑j) / ↑n) ^ k := by
  rw [← Complex.exp_nat_mul, ← Complex.exp_add]
  congr 1
  push_cast
  ring

theorem exp_kernel_ne_one {n : ℕ} (hn : 0 < n) {i j : ℕ} (hi : i < n)
    (hj : j < n) (hij : j ≠ i) :
    Complex.exp (2 * ↑π * Complex.I * (↑i - ↑j) / ↑n) ≠ 1 := by
  intro h
  rw [Complex.exp_eq_one_iff] at h
  obtain ⟨m, hm⟩ := h
  have hne : (n : ℂ) ≠ 0 := Nat.cast_ne_zero.mpr hn.ne'
  have hpi : (π : ℂ) ≠ 0 := Complex.ofReal_ne_zero.mpr Real.pi_ne_zero
  have hc : (2 * ↑π * Complex.I : ℂ) ≠ 0 :=
    mul_ne_zero (mul_ne_zero (by norm_num) hpi) Complex.I_ne_zero
  rw [div_eq_iff hne] at hm
  have hm2 : (2 * ↑π * Complex.I : ℂ) * ((i : ℂ) - j) =
      (2 * ↑π * Complex.I : ℂ) * (↑m * ↑n) := by
    rw [hm]; ring
  have hmain := mul_left_cancel₀ hc hm2
  have hz : (i : ℤ) - j = m * n := by exact_mod_cast hmain
  have hn1 : (1 : ℤ) ≤ n := by exact_mod_cast hn
  rcases lt_trichotomy m 0 with hm0 | hm0 | hm0
  · have : m * (n : ℤ) ≤ -1 * n :=
      mul_le_mul_of_nonneg_right (by omega) (by omega)
    omega
  · subst hm0
    simp at hz
    omega
  · have : (1 : ℤ) * n ≤ m * n :=
      mul_le_mul_of_nonneg_right (by omega) (by omega)
    omega

theorem exp_kernel_pow_n {n : ℕ} (hn : 0 < n) (i j : ℕ) :
    Complex.exp (2 * ↑π * Complex.I * (↑i - ↑j) / ↑n) ^ n = 1 := by
  rw [← Complex.exp_nat_mul]
  have hne : (n : ℂ) ≠ 0 := Nat.cast_ne_zero.mpr hn.ne'
  have harg : (n : ℂ) * (2 * ↑π * Complex.I * (↑i - ↑j) / ↑n) =
      ((i - j : ℤ) : ℂ) * (2 * ↑π * Complex.I) := by
    push_cast
    field_simp
    ring
  rw [harg, Complex.exp_int_mul_two_pi_mul_I]

theorem geom_sum_kernel {n : ℕ} (hn : 0 < n) {i j : ℕ} (hi : i < n)
    (hj : j < n) :
    ∑ k ∈ Finset.range n,
      Complex.exp (2 * ↑π * Complex.I * (↑i - ↑j) / ↑n) ^ k =
    if j = i then (n : ℂ) else 0 := by
  by_cases hij : j = i
  · subst hij
    simp
  · rw [if_neg hij, geom_sum_eq (exp_kernel_ne_one hn hi hj hij),
      exp_kernel_pow_n hn, sub_self, zero_div]

theorem invSum_dft {n : ℕ} (hn : 0 < n) (x : ℕ → ℂ) {i : ℕ} (hi : i < n) :
    ∑ k ∈ Finset.range n,
      dft n x k * Complex.exp (2 * ↑π * Complex.I * ↑k * ↑i / ↑n) = x i := by
  have hne : (n : ℂ) ≠ 0 := Nat.cast_ne_zero.mpr hn.ne'
  have hterm : ∀ k, dft n x k * Complex.exp (2 * ↑π * Complex.I * ↑k * ↑i / ↑n) =
      ∑ j ∈ Finset.range n,
        x j * Complex.exp (2 * ↑π * Complex.I * (↑i - ↑j) / ↑n) ^ k / ↑n := by
    intro k
    rw [dft, div_mul_eq_mul_div, Finset.sum_mul, Finset.sum_div]
    apply Finset.sum_congr rfl
    intro j _
    rw [mul_assoc, exp_kernel_mul]
  rw [Finset.sum_congr rfl (fun k _ => hterm k), Finset.sum_comm]
  have hinner : ∀ j ∈ Finset.range n,
      (∑ k ∈ Finset.range n,
        x j * Complex.exp (2 * ↑π * Complex.I * (↑i - ↑j) / ↑n) ^ k / ↑n) =
      if j = i then x j else 0 := by
    intro j hjmem
    rw [← Finset.sum_div, ← Finset.mul_sum,
      geom_sum_kernel hn hi (Finset.mem_range.mp hjmem)]
    by_cases hij : j = i
    · rw [if_pos hij, if_pos hij, mul_div_assoc, div_self hne, mul_one]
    · rw [if_neg hij, if_neg hij, mul_zero, zero_div]
  rw [Finset.sum_congr rfl hinner, Finset.sum_ite_eq' (Finset.range n) i]
  rw [if_pos (Finset.mem_range.mpr hi)]

/-! ### Round trip -/

theorem ifft_direct_eq {n : ℕ} (h : ¬is_power_of_2 n = true) (c : ℕ → ℂ)
    {i : ℕ} (hi : i < n) :
    ifft n c i =
      ∑ k ∈ Finset.range n,
        c k * Complex.exp (2 * ↑π * Complex.I * ↑k * ↑i / ↑n) := by
  rw [ifft, if_neg h]
  simp only [hi, if_true]

theorem ifft_pow2_eq {n : ℕ} (h : is_power_of_2 n = true) (c : ℕ → ℂ)
    {i : ℕ} (hi : i < n) :
    ifft n c i = (starRingEnd ℂ)
      (fft n (fun j => if j < n then (starRingEnd ℂ) (c j) * ↑n else 0) i) := by
  rw [ifft, if_pos h]
  simp only [hi, if_true]

/-- C1: for every sequence of length `n`, applying `ifft` to `fft` returns
the input exactly (in the exact-arithmetic embedding), on both the
power-of-two conjugate/scale path and the direct-summation path. -/
theorem ifft_fft_roundtrip (n : ℕ) (x : ℕ → ℂ) (p : ℕ) (hp : p < n) :
    ifft n (fft n x) p = x p := by
  have hn : 0 < n := by omega
  have hne : (n : ℂ) ≠ 0 := Nat.cast_ne_zero.mpr hn.ne'
  by_cases h : is_power_of_2 n = true
  · rw [ifft_pow2_eq h (fft n x) hp, fft_eq_dft_of_lt _ hp, dft, map_div₀,
      map_sum, map_natCast]
    have hterm : ∀ j ∈ Finset.range n,
        (starRingEnd ℂ)
          ((if j < n then (starRingEnd ℂ) (fft n x j) * ↑n else 0) *
            Complex.exp (Complex.I * ((-2 * π * j * p / n : ℝ) : ℂ))) =
        dft n x j * Complex.exp (2 * ↑π * Complex.I * ↑j * ↑p / ↑n) * ↑n := by
      intro j hj
      rw [if_pos (Finset.mem_range.mp hj), map_mul, map_mul, map_natCast,
        Complex.conj_conj, ← Complex.exp_conj]
      rw [fft_eq_dft_of_lt x (Finset.mem_range.mp hj)]
      have hexp : (starRingEnd ℂ) (Complex.I * ((-2 * π * j * p / n : ℝ) : ℂ)) =
          2 * ↑π * Complex.I * ↑j * ↑p / ↑n := by
        rw [map_mul, Complex.conj_I, Complex.conj_ofReal]
        push_cast
        ring
      rw [hexp]
      ring
    rw [Finset.sum_congr rfl hterm, ← Finset.sum_mul, mul_div_assoc,
      div_self hne, mul_one]
    exact invSum_dft hn x hp
  · rw [ifft_direct_eq h (fft n x) hp]
    have hfd : ∀ k ∈ Finset.range n,
        fft n x k * Complex.exp (2 * ↑π * Complex.I * ↑k * ↑p / ↑n) =
        dft n x k * Complex.exp (2 * ↑π * Complex.I * ↑k * ↑p / ↑n) := by
      intro k hk
      rw [fft_eq_dft_of_lt x (Finset.mem_range.mp hk)]
    rw [Finset.sum_congr rfl hfd]
    exact invSum_dft hn x hp

/-- Witness for C1 at the power-of-two size `n = 4`, component `p = 2`. -/
theorem ifft_fft_roundtrip_witness :
    2 < 4 ∧ ifft 4 (fft 4 (fun j => (j : ℂ) + 1)) 2 = (2 : ℂ) + 1 :=
  ⟨by norm_num, ifft_fft_roundtrip 4 (fun j => (j : ℂ) + 1) 2 (by norm_num)⟩

/-! ### The direct transform seen through its output buffer -/

/-- C3: for every input, the direct transform fills a buffer of the input's
length whose entry `k` is `(1/n) * Σ_j points[j] * exp(-2πi·j·k/n)`; the
empty input yields the empty spectrum (a valid, non-error case). -/
theorem dft_direct_formula (points : List ℂ) :
    (dftList points).length = points.length ∧
    dftList [] = [] ∧
    ∀ k, k < points.length →
      (dftList points).getD k 0 =
        (1 / (points.length : ℂ)) *
          ∑ j ∈ Finset.range points.length,
            points.getD j 0 *
              Complex.exp (-(2 * ↑π * Complex.I * ↑j * ↑k) / ↑points.length) := by
  refine ⟨by simp [dftList], by simp [dftList], ?_⟩
  intro k hk
  have hlen : k < (dftList points).length := by simp [dftList, hk]
  rw [List.getD_eq_getElem _ _ hlen]
  simp only [dftList, List.getElem_map, List.getElem_range]
  rw [dft, one_div, inv_mul_eq_div]
  congr 1
  apply Finset.sum_congr rfl
  intro j _
  congr 1
  congr 1
  push_cast
  ring

/-- Witness for C3 on the one-point list `[1]` at index `k = 0`. -/
theorem dft_direct_formula_witness :
    0 < [(1 : ℂ)].length ∧
    (dftList [(1 : ℂ)]).getD 0 0 =
      (1 / ([(1 : ℂ)].length : ℂ)) *
        ∑ j ∈ Finset.range [(1 : ℂ)].length,
          [(1 : ℂ)].getD j 0 *
            Complex.exp (-(2 * ↑π * Complex.I * ↑j * ↑(0 : ℕ)) / ↑[(1 : ℂ)].length) :=
  ⟨by norm_num, (dft_direct_formula [(1 : ℂ)]).2.2 0 (by norm_num)⟩

/-! ### Frequency centering -/

/-- C4: for `n ≥ 1` and every spectrum index `i < n`, the frequency stored
in the extracted coefficient is the centered index: `i` when `i ≤ n/2`
(integer division), else `i - n`; in particular for `n = 8`, indices 5, 4, 0
map to frequencies -3, 4, 0. -/
theorem frequency_centering (n : ℕ) (fft_output : ℕ → ℂ) (i : ℕ)
    (hn : 1 ≤ n) (hi : i < n) :
    ((allCoeffs n fft_output).getD i ⟨0, 0, 0⟩).frequency =
      (if i ≤ n / 2 then (i : ℝ) else (i : ℝ) - (n : ℝ)) ∧
    ((allCoeffs 8 fft_output).getD 5 ⟨0, 0, 0⟩).frequency = -3 ∧
    ((allCoeffs 8 fft_output).getD 4 ⟨0, 0, 0⟩).frequency = 4 ∧
    ((allCoeffs 8 fft_output).getD 0 ⟨0, 0, 0⟩).frequency = 0 := by
  have hget : ∀ (m j : ℕ), j < m →
      (allCoeffs m fft_output).getD j ⟨0, 0, 0⟩ = coeffOfIndex m fft_output j := by
    intro m j hj
    have hlen : j < (allCoeffs m fft_output).length := by simp [allCoeffs, hj]
    rw [List.getD_eq_getElem _ _ hlen]
    simp only [allCoeffs, List.getElem_map, List.getElem_range]
  refine ⟨?_, ?_, ?_, ?_⟩
  · rw [hget n i hi, coeffOfIndex]
  · rw [hget 8 5 (by norm_num), coeffOfIndex]
    norm_num
  · rw [hget 8 4 (by norm_num), coeffOfIndex]
    norm_num
  · rw [hget 8 0 (by norm_num), coeffOfIndex]
    norm_num

/-- Witness for C4 at `n = 8`, `i = 5`, zero spectrum. -/
theorem frequency_centering_witness :
    (1 ≤ 8 ∧ 5 < 8) ∧
    ((allCoeffs 8 (fun _ => (0 : ℂ))).getD 5 ⟨0, 0, 0⟩).frequency =
      (if 5 ≤ 8 / 2 then ((5 : ℕ) : ℝ) else ((5 : ℕ) : ℝ) - ((8 : ℕ) : ℝ)) :=
  ⟨⟨by norm_num, by norm_num⟩,
    (frequency_centering 8 (fun _ => (0 : ℂ)) 5 (by norm_num) (by norm_num)).1⟩

/-! ### Analyzer structure -/

theorem fourier_analyze_eq {points : List ℂ} {k : ℕ} (hn : points.length ≠ 0)
    (hk : k ≠ 0) :
    fourier_analyze points k =
      ⟨some (((allCoeffs points.length
          (fft points.length (fun j => points.getD j 0))).mergeSort
            compare_coeffs_le).take (min k points.length)),
        min k points.length⟩ := by
  rw [fourier_analyze, if_neg (by push_neg; exact ⟨hn, hk⟩)]

theorem compare_coeffs_le_iff (a b : FourierCoefficient) :
    compare_coeffs_le a b = true ↔ b.amplitude ≤ a.amplitude := by
  rw [compare_coeffs_le, decide_eq_true_eq]

theorem compare_coeffs_trans : ∀ a b c : FourierCoefficient,
    compare_coeffs_le a b = true → compare_coeffs_le b c = true →
    compare_coeffs_le a c = true := by
  intro a b c hab hbc
  rw [compare_coeffs_le_iff] at *
  exact le_trans hbc hab

theorem compare_coeffs_total : ∀ a b : FourierCoefficient,
    (compare_coeffs_le a b || compare_coeffs_le b a) = true := by
  intro a b
  rw [Bool.or_eq_true, compare_coeffs_le_iff, compare_coeffs_le_iff]
  exact le_total b.amplitude a.amplitude

theorem mem_allCoeffs {n : ℕ} {s : ℕ → ℂ} {c : FourierCoefficient}
    (hc : c ∈ allCoeffs n s) : ∃ i, i < n ∧ c = coeffOfIndex n s i := by
  obtain ⟨i, hi, hci⟩ := List.mem_map.mp hc
  exact ⟨i, List.mem_range.mp hi, hci.symm⟩

/-- C8: every coefficient of every analysis result has nonnegative
amplitude equal to `|spectrum[i]|` for its spectrum index `i`, an
integer-valued frequency, and phase `arg(spectrum[i]) ∈ (-π, π]`. -/
theorem analyze_coefficient_invariants (points : List ℂ) (k : ℕ)
    (l : List FourierCoefficient) (c : FourierCoefficient)
    (hl : (fourier_analyze points k).coefficients = some l) (hc : c ∈ l) :
    0 ≤ c.amplitude ∧ (∃ z : ℤ, c.frequency = (z : ℝ)) ∧
    c.phase ∈ Set.Ioc (-π) π ∧
    ∃ i, i < points.length ∧
      c.amplitude =
        Complex.abs (fft points.length (fun j => points.getD j 0) i) ∧
      c.phase =
        Complex.arg (fft points.length (fun j => points.getD j 0) i) := by
  by_cases hdeg : points.length = 0 ∨ k = 0
  · rw [fourier_analyze, if_pos hdeg] at hl
    exact absurd hl (by simp)
  · push_neg at hdeg
    rw [fourier_analyze_eq hdeg.1 hdeg.2] at hl
    simp only [Option.some.injEq] at hl
    subst hl
    have h1 : c ∈ (allCoeffs points.length
        (fft points.length (fun j => points.getD j 0))).mergeSort
          compare_coeffs_le :=
      List.mem_of_mem_take hc
    have h2 : c ∈ allCoeffs points.length
        (fft points.length (fun j => points.getD j 0)) :=
      (List.mergeSort_perm _ _).subset h1
    obtain ⟨i, hi, rfl⟩ := mem_allCoeffs h2
    refine ⟨AbsoluteValue.nonneg Complex.abs _, ?_, Complex.arg_mem_Ioc _,
      i, hi, rfl, rfl⟩
    rw [coeffOfIndex]
    by_cases hhalf : i ≤ points.length / 2
    · exact ⟨(i : ℤ), by rw [if_pos hhalf]; push_cast; ring⟩
    · exact ⟨(i : ℤ) - points.length, by rw [if_neg hhalf]; push_cast; ring⟩

/-- Witness for C8 on the one-point input `[1]` with `k = 1`. -/
theorem analyze_coefficient_invariants_witness :
    ∃ l c, (fourier_analyze [(1 : ℂ)] 1).coefficients = some l ∧ c ∈ l ∧
      (0 ≤ c.amplitude ∧ (∃ z : ℤ, c.frequency = (z : ℝ)) ∧
       c.phase ∈ Set.Ioc (-π) π ∧
       ∃ i, i < [(1 : ℂ)].length ∧
         c.amplitude =
           Complex.abs (fft [(1 : ℂ)].length (fun j => [(1 : ℂ)].getD j 0) i) ∧
         c.phase =
           Complex.arg (fft [(1 : ℂ)].length (fun j => [(1 : ℂ)].getD j 0) i)) := by
  have hl : (fourier_analyze [(1 : ℂ)] 1).coefficients =
      some [coeffOfIndex 1 (fft 1 (fun j => [(1 : ℂ)].getD j 0)) 0] := by
    rw [fourier_analyze_eq (by norm_num) (by norm_num)]
    have hr : List.range 1 = [0] := by decide
    simp [allCoeffs, hr, List.mergeSort_singleton]
  have hc : coeffOfIndex 1 (fft 1 (fun j => [(1 : ℂ)].getD j 0)) 0 ∈
      [coeffOfIndex 1 (fft 1 (fun j => [(1 : ℂ)].getD j 0)) 0] :=
    List.mem_singleton.mpr rfl
  exact ⟨_, _, hl, hc, analyze_coefficient_invariants [(1 : ℂ)] 1 _ _ hl hc⟩

/-! ### Ranking -/

theorem real_ge_trans : ∀ a b c : ℝ, decide (b ≤ a) = true →
    decide (c ≤ b) = true → decide (c ≤ a) = true := by
  intro a b c hab hbc
  rw [decide_eq_true_eq] at *
  exact le_trans hbc hab

theorem real_ge_total : ∀ a b : ℝ,
    (decide (b ≤ a) || decide (a ≤ b)) = true := by
  intro a b
  rw [Bool.or_eq_true, decide_eq_true_eq, decide_eq_true_eq]
  exact le_total b a

theorem allCoeffs_map_amplitude (n : ℕ) (s : ℕ → ℂ) :
    (allCoeffs n s).map (fun c => c.amplitude) =
      (List.range n).map (fun i => Complex.abs (s i)) := by
  rw [allCoeffs, List.map_map]
  rfl

/-- The amplitudes of the sorted coefficient list are the sorted
amplitudes: both lists are non-increasing and have the same multiset. -/
theorem mergeSort_map_amplitude (n : ℕ) (s : ℕ → ℂ) :
    ((allCoeffs n s).mergeSort compare_coeffs_le).map (fun c => c.amplitude) =
      ((allCoeffs n s).map (fun c => c.amplitude)).mergeSort
        (fun a b => decide (b ≤ a)) := by
  haveI : IsAntisymm ℝ (fun a b : ℝ => b ≤ a) :=
    ⟨fun a b h1 h2 => le_antisymm h2 h1⟩
  apply List.eq_of_perm_of_sorted (r := fun a b : ℝ => b ≤ a)
  · exact ((List.mergeSort_perm _ _).map _).trans
      (List.mergeSort_perm _ _).symm
  · have hp := List.sorted_mergeSort compare_coeffs_trans compare_coeffs_total
      (allCoeffs n s)
    exact List.Pairwise.map _
      (fun a b hab => (compare_coeffs_le_iff a b).mp hab) hp
  · have hp := List.sorted_mergeSort real_ge_trans real_ge_total
      ((allCoeffs n s).map (fun c => c.amplitude))
    exact hp.imp (fun hab => of_decide_eq_true hab)

/-- C5: with all allocations succeeding, `fourier_analyze` on `n ≥ 1`
points with request `k ≥ 1` returns exactly `min k n` coefficients, in
non-increasing amplitude order, and the multiset of returned amplitudes is
the `min k n` largest amplitudes of the full spectrum. -/
theorem analyze_ranking (points : List ℂ) (k : ℕ)
    (hn : 1 ≤ points.length) (hk : 1 ≤ k) :
    ∃ l, (fourier_analyze points k).coefficients = some l ∧
      (fourier_analyze points k).count = min k points.length ∧
      l.length = min k points.length ∧
      l.Sorted (fun a b => b.amplitude ≤ a.amplitude) ∧
      (↑(l.map (fun c => c.amplitude)) : Multiset ℝ) =
        largestAmplitudes
          ((List.range points.length).map
            (fun i => Complex.abs (fft points.length (fun j => points.getD j 0) i)))
          (min k points.length) := by
  have heq := @fourier_analyze_eq points k (by omega) (by omega)
  refine ⟨_, by rw [heq], by rw [heq], ?_, ?_, ?_⟩
  · rw [List.length_take, List.length_mergeSort]
    have : (allCoeffs points.length
        (fft points.length (fun j => points.getD j 0))).length = points.length := by
      simp [allCoeffs]
    omega
  · have hp := List.sorted_mergeSort compare_coeffs_trans compare_coeffs_total
      (allCoeffs points.length (fft points.length (fun j => points.getD j 0)))
    have hs : List.Pairwise
        (fun a b : FourierCoefficient => b.amplitude ≤ a.amplitude)
        ((allCoeffs points.length
          (fft points.length (fun j => points.getD j 0))).mergeSort
            compare_coeffs_le) :=
      hp.imp (fun hab => (compare_coeffs_le_iff _ _).mp hab)
    exact hs.sublist (List.take_sublist _ _)
  · rw [List.map_take, mergeSort_map_amplitude, allCoeffs_map_amplitude,
      largestAmplitudes]

/-- Witness for C5 on the one-point input `[1]` with `k = 1`. -/
theorem analyze_ranking_witness :
    (1 ≤ [(1 : ℂ)].length ∧ 1 ≤ 1) ∧
    ∃ l, (fourier_analyze [(1 : ℂ)] 1).coefficients = some l ∧
      (fourier_analyze [(1 : ℂ)] 1).count = min 1 [(1 : ℂ)].length ∧
      l.length = min 1 [(1 : ℂ)].length ∧
      l.Sorted (fun a b => b.amplitude ≤ a.amplitude) ∧
      (↑(l.map (fun c => c.amplitude)) : Multiset ℝ) =
        largestAmplitudes
          ((List.range [(1 : ℂ)].length).map
            (fun i => Complex.abs
              (fft [(1 : ℂ)].length (fun j => [(1 : ℂ)].getD j 0) i)))
          (min 1 [(1 : ℂ)].length) :=
  ⟨⟨by norm_num, le_rfl⟩, analyze_ranking [(1 : ℂ)] 1 (by norm_num) le_rfl⟩

/-! ### Allocation failure behavior -/

/-- Counterexample to C7 as stated: when the first allocation fails on the
non-degenerate input `[1]` with request `1`, `fourier_analyze` returns a
result that is *equal* to the non-failed empty result for degenerate input
(`n = 0`), so no distinguishable failure signal exists. -/
theorem alloc_failure_indistinguishable :
    fourier_analyzeAlloc false true true [(1 : ℂ)] 1 = fourier_analyze [] 1 := by
  have h1 : fourier_analyzeAlloc false true true [(1 : ℂ)] 1 = ⟨none, 0⟩ := by
    rw [fourier_analyzeAlloc, if_neg (by norm_num), if_pos rfl]
  have h2 : fourier_analyze ([] : List ℂ) 1 = ⟨none, 0⟩ := by
    rw [fourier_analyze, if_pos (by norm_num)]
  rw [h1, h2]

/-- C7 amended: when any allocation fails, `fourier_analyze` returns the
empty result `{NULL, 0}` (no crash, no partial result), but that value is
identical to — not distinguishable from — the empty result returned for
degenerate input; (`ifft`'s allocation is unchecked and outside this
statement). -/
theorem alloc_failure_empty_result (a1 a2 a3 : Bool) (points : List ℂ)
    (k : ℕ) (hfail : a1 = false ∨ a2 = false ∨ a3 = false) :
    fourier_analyzeAlloc a1 a2 a3 points k = ⟨none, 0⟩ ∧
    fourier_analyzeAlloc a1 a2 a3 points k = fourier_analyze [] 0 := by
  have hres : fourier_analyzeAlloc a1 a2 a3 points k = ⟨none, 0⟩ := by
    rw [fourier_analyzeAlloc]
    by_cases hdeg : points.length = 0 ∨ k = 0
    · rw [if_pos hdeg]
    · rw [if_neg hdeg]
      rcases hfail with h | h | h
      · rw [if_pos h]
      · by_cases h1 : a1 = false
        · rw [if_pos h1]
        · rw [if_neg h1, if_pos h]
      · by_cases h1 : a1 = false
        · rw [if_pos h1]
        · rw [if_neg h1]
          by_cases h2 : a2 = false
          · rw [if_pos h2]
          · rw [if_neg h2, if_pos h]
  refine ⟨hres, ?_⟩
  rw [hres, fourier_analyze, if_pos (by norm_num)]

/-- Witness for the amended C7: second allocation failing on `[1]`, `k = 1`. -/
theorem alloc_failure_empty_result_witness :
    (true = false ∨ false = false ∨ true = false) ∧
    (fourier_analyzeAlloc true false true [(1 : ℂ)] 1 = ⟨none, 0⟩ ∧
     fourier_analyzeAlloc true false true [(1 : ℂ)] 1 = fourier_analyze [] 0) :=
  ⟨Or.inr (Or.inl rfl),
    alloc_failure_empty_result true false true [(1 : ℂ)] 1 (Or.inr (Or.inl rfl))⟩

/-! ### Epicycle reconstruction -/

theorem epicycles_fold_spec (t : ℝ) :
    ∀ (l : List FourierCoefficient) (z : ℂ) (acc : List ℂ),
      l.foldl
          (fun (st : ℂ × List ℂ) coeff =>
            let cumulative := st.1 + epicycleContribution t coeff
            (cumulative, st.2 ++ [cumulative]))
          (z, acc) =
        (z + ∑ i ∈ Finset.range l.length,
            epicycleContribution t (l.getD i ⟨0, 0, 0⟩),
         acc ++ (List.range l.length).map
            (fun m => z + ∑ i ∈ Finset.range (m + 1),
              epicycleContribution t (l.getD i ⟨0, 0, 0⟩))) := by
  intro l
  induction l with
  | nil =>
    intro z acc
    simp
  | cons c cs ih =>
    intro z acc
    rw [List.foldl_cons]
    show List.foldl
        (fun (st : ℂ × List ℂ) coeff =>
          let cumulative := st.1 + epicycleContribution t coeff
          (cumulative, st.2 ++ [cumulative]))
        (z + epicycleContribution t c, acc ++ [z + epicycleContribution t c])
        cs = _
    rw [ih]
    simp only [Prod.mk.injEq]
    constructor
    · rw [List.length_cons, Finset.sum_range_succ']
      simp only [List.getD_cons_succ, List.getD_cons_zero]
      ring
    · rw [List.length_cons, List.range_succ_eq_map, List.map_cons,
        List.map_map, List.append_assoc, List.singleton_append]
      congr 1
      congr 1
      · simp [Finset.sum_range_one]
      · apply List.map_congr_left
        intro m _
        simp only [Function.comp_apply, Finset.sum_range_succ',
          List.getD_cons_succ, List.getD_cons_zero]
        ring

theorem epicycles_fold_fst (t : ℝ) :
    ∀ (l : List FourierCoefficient) (z : ℂ) (acc : List ℂ),
      (l.foldl
          (fun (st : ℂ × List ℂ) coeff =>
            let cumulative := st.1 + epicycleContribution t coeff
            (cumulative, st.2 ++ [cumulative]))
          (z, acc)).1 =
      l.foldl (fun cumulative coeff => cumulative + epicycleContribution t coeff)
        z := by
  intro l
  induction l with
  | nil => intro z acc; rfl
  | cons c cs ih =>
    intro z acc
    rw [List.foldl_cons, List.foldl_cons]
    exact ih (z + epicycleContribution t c) (acc ++ [z + epicycleContribution t c])

theorem epicycles_at_time_pos_eq (cs : List FourierCoefficient) (c : ℕ) (t : ℝ) :
    epicycles_at_time ⟨some cs, c + 1⟩ t true =
      (((cs.take (c + 1)).foldl
          (fun (st : ℂ × List ℂ) coeff =>
            let cumulative := st.1 + epicycleContribution t coeff
            (cumulative, st.2 ++ [cumulative]))
          (0, [0])).1,
       some ((cs.take (c + 1)).foldl
          (fun (st : ℂ × List ℂ) coeff =>
            let cumulative := st.1 + epicycleContribution t coeff
            (cumulative, st.2 ++ [cumulative]))
          (0, [0])).2) := rfl

/-- C6: for an analysis result with `count = m` coefficients, the trail has
exactly `m + 1` positions, position 0 is the origin for every `t`, position
`k` is the cumulative sum of the first `k` contributions in ranking order,
and the final position is the returned tip; an empty (`NULL`) result gives
tip `0` and the single-element origin trail. -/
theorem epicycles_trail_spec (result : FourierResult) (t : ℝ)
    (l : List FourierCoefficient) (hco : result.coefficients = some l)
    (hcount : result.count = l.length) :
    (∃ trail : List ℂ,
      epicycles_at_time result t true = (trail.getD l.length 0, some trail) ∧
      trail.length = l.length + 1 ∧
      trail.getD 0 0 = 0 ∧
      ∀ m, m ≤ l.length → trail.getD m 0 =
        ∑ i ∈ Finset.range m, epicycleContribution t (l.getD i ⟨0, 0, 0⟩)) ∧
    epicycles_at_time ⟨none, result.count⟩ t true = (0, some [0]) := by
  refine ⟨?_, rfl⟩
  rcases result with ⟨co, cnt⟩
  simp only at hco hcount
  subst hco
  subst hcount
  cases l with
  | nil =>
    refine ⟨[0], rfl, rfl, rfl, ?_⟩
    intro m hm
    have hm0 : m = 0 := by simpa using hm
    subst hm0
    simp
  | cons c cs =>
    have htake : (c :: cs).take (cs.length + 1) = c :: cs := by
      rw [← List.length_cons c cs]
      exact List.take_length _
    rw [List.length_cons, epicycles_at_time_pos_eq, htake,
      epicycles_fold_spec t (c :: cs) 0 [0]]
    simp only [List.singleton_append]
    refine ⟨0 :: (List.range (c :: cs).length).map
        (fun m => 0 + ∑ i ∈ Finset.range (m + 1),
          epicycleContribution t ((c :: cs).getD i ⟨0, 0, 0⟩)), ?_, ?_, rfl, ?_⟩
    · congr 1
      rw [List.getD_cons_succ]
      have hlt : cs.length <
          ((List.range (c :: cs).length).map
            (fun m => 0 + ∑ i ∈ Finset.range (m + 1),
              epicycleContribution t ((c :: cs).getD i ⟨0, 0, 0⟩))).length := by
        simp [List.length_cons]
      rw [List.getD_eq_getElem _ _ hlt]
      simp only [List.getElem_map, List.getElem_range, List.length_cons]
    · simp [List.length_cons]
    · intro m hm
      cases m with
      | zero => simp
      | succ m' =>
        rw [List.getD_cons_succ]
        have hlt : m' <
            ((List.range (c :: cs).length).map
              (fun k => 0 + ∑ i ∈ Finset.range (k + 1),
                epicycleContribution t ((c :: cs).getD i ⟨0, 0, 0⟩))).length := by
          simp only [List.length_map, List.length_range, List.length_cons]
          omega
        rw [List.getD_eq_getElem _ _ hlt]
        simp only [List.getElem_map, List.getElem_range, zero_add]

/-- Witness for C6 on a one-coefficient result at `t = 0`. -/
theorem epicycles_trail_spec_witness :
    ((⟨some [⟨1, 0, 0⟩], 1⟩ : FourierResult).coefficients =
        some [(⟨1, 0, 0⟩ : FourierCoefficient)] ∧
     (⟨some [⟨1, 0, 0⟩], 1⟩ : FourierResult).count =
        [(⟨1, 0, 0⟩ : FourierCoefficient)].length) ∧
    ((∃ trail : List ℂ,
      epicycles_at_time ⟨some [⟨1, 0, 0⟩], 1⟩ 0 true =
        (trail.getD [(⟨1, 0, 0⟩ : FourierCoefficient)].length 0, some trail) ∧
      trail.length = [(⟨1, 0, 0⟩ : FourierCoefficient)].length + 1 ∧
      trail.getD 0 0 = 0 ∧
      ∀ m, m ≤ [(⟨1, 0, 0⟩ : FourierCoefficient)].length → trail.getD m 0 =
        ∑ i ∈ Finset.range m,
          epicycleContribution 0
            ([(⟨1, 0, 0⟩ : FourierCoefficient)].getD i ⟨0, 0, 0⟩)) ∧
    epicycles_at_time
        ⟨none, (⟨some [⟨1, 0, 0⟩], 1⟩ : FourierResult).count⟩ 0 true =
      (0, some [0])) :=
  ⟨⟨rfl, rfl⟩, epicycles_trail_spec ⟨some [⟨1, 0, 0⟩], 1⟩ 0 [⟨1, 0, 0⟩] rfl rfl⟩

/-- C10: the returned tip does not depend on whether a `positions` buffer
is supplied; passing `NULL` only suppresses recording of the trail. -/
theorem tip_independent_of_positions (result : FourierResult) (t : ℝ) :
    (epicycles_at_time result t true).1 =
      (epicycles_at_time result t false).1 := by
  rcases result with ⟨co, cnt⟩
  cases co with
  | none => rfl
  | some cs =>
    cases cnt with
    | zero => rfl
    | succ c => exact epicycles_fold_fst t (cs.take (c + 1)) 0 [0]
